import Mathlib

/-!
Shallow embedding of ubuntudesign/documentation_builder (builder.py) and
proofs about its behaviour.  Documents, file paths and file contents are
modelled as lists of characters; filesystem and third-party library calls
(os.path, re, str.replace, python-frontmatter, python-markdown, jinja2)
are modelled by pure functions faithful to their semantics at the call
sites used by builder.py.
-/

namespace DocBuilder

/-- Strings of the embedded program are lists of characters. -/
abbrev Str := List Char

/-- Converts a Lean string literal into the embedded representation. -/
def str (s : String) : Str := s.toList

/-- Values of Python objects stored in metadata and context dictionaries:
enough structure to express strings and lists (the only shapes the code
inspects, via the singleton-list check in parse_markdown). -/
inductive PyVal where
  | pstr : Str → PyVal
  | plist : List PyVal → PyVal

/-- Association-list model of a Python dict (insertion ordered). -/
abbrev Dict (α : Type) := List (Str × α)

/-- Models d[k] = v on a Python dict: replaces in place when the key is
present, appends otherwise. -/
def dictSet {α : Type} (d : Dict α) (k : Str) (v : α) : Dict α :=
  if d.any (fun p => p.1 = k) then
    d.map (fun p => if p.1 = k then (k, v) else p)
  else
    d ++ [(k, v)]

/-- Models d.update(m) on Python dicts: sets every key of m in order. -/
def dictUpdate {α : Type} (d m : Dict α) : Dict α :=
  m.foldl (fun acc p => dictSet acc p.1 p.2) d

/-- Models d.get(k): the value stored at the first occurrence of k. -/
def lookupDict {α : Type} (d : Dict α) (k : Str) : Option α :=
  (d.find? (fun p => p.1 = k)).map (fun p => p.2)

/-- Value of the last entry for key k in an association list, mirroring
that later assignments for the same key win. -/
def lookupLast {α : Type} (m : Dict α) (k : Str) : Option α :=
  (m.reverse.find? (fun p => p.1 = k)).map (fun p => p.2)

/-- First-defined choice on options. -/
def oGet {α : Type} (a b : Option α) : Option α :=
  match a with
  | some v => some v
  | none => b

/-- Splits a character list at every slash; adjacent slashes yield empty
groups, mirroring str.split. -/
def splitSlash : Str → List Str
  | [] => [[]]
  | c :: cs =>
    if c = '/' then [] :: splitSlash cs
    else
      match splitSlash cs with
      | [] => [[c]]
      | g :: gs => (c :: g) :: gs

/-- Nonempty path components of a path string, as in the component lists
built by posixpath.relpath. -/
def splitPath (p : Str) : List Str :=
  (splitSlash p).filter (fun c => c ≠ [])

/-- Length of the longest common prefix of two component lists. -/
def commonPrefixLen : List Str → List Str → Nat
  | a :: as, b :: bs => if a = b then commonPrefixLen as bs + 1 else 0
  | _, _ => 0

/-- Component list of the relative path from start to p, as computed by
posixpath.relpath on normalized paths. -/
def relpathList (p s : List Str) : List Str :=
  List.replicate (s.length - commonPrefixLen p s) (str "..") ++
    p.drop (commonPrefixLen p s)

/-- Joins path components with slashes. -/
def joinComps : List Str → Str
  | [] => []
  | [c] => c
  | c :: rest => c ++ '/' :: joinComps rest

/-- Models os.path.relpath(p, s) for normalized paths that are both
relative or both absolute, the only way builder.py calls it. -/
def relpath (p s : Str) : Str :=
  if relpathList (splitPath p) (splitPath s) = [] then str "."
  else joinComps (relpathList (splitPath p) (splitPath s))

/-- Models os.path.dirname: everything before the last slash, with
trailing slashes stripped unless the result is all slashes. -/
def dirname (p : Str) : Str :=
  let headRev := p.reverse.dropWhile (fun c => c ≠ '/')
  if headRev = [] then []
  else if headRev.all (fun c => c = '/') then headRev.reverse
  else (headRev.dropWhile (fun c => c = '/')).reverse

/-- Models os.path.basename: everything after the last slash. -/
def basename (p : Str) : Str :=
  (p.reverse.takeWhile (fun c => c ≠ '/')).reverse

/-- Models os.path.join(a, b) for two arguments. -/
def pyJoin (a b : Str) : Str :=
  if b.head? = some '/' then b
  else if a = [] then b
  else if a.getLast? = some '/' then a ++ b
  else a ++ '/' :: b

/-! ## parse_markdown

frontmatter.load and markdown.Markdown.convert are third-party calls;
they are parameters of the embedding.  A frontmatter load returns the
metadata mapping and the remaining content, or fails (ScannerError or
ParserError) when the front matter block is malformed YAML.  A markdown
conversion returns the HTML and, when the meta extension found metadata
at the top of the document, the Meta mapping. -/

/-- Type of the frontmatter.load call: metadata and content on success,
none on a YAML ScannerError or ParserError. -/
abbrev FmLoad := Str → Option (Dict PyVal × Str)

/-- Type of the markdown conversion: HTML output plus the Meta mapping
when the parser has a Meta attribute. -/
abbrev MdConvert := Str → Str × Option (Dict PyVal)

/-- Models the singleton-list unwrapping in parse_markdown: a value that
is a list of exactly one element becomes that element. -/
def unwrapSingleton : PyVal → PyVal
  | .plist [x] => x
  | v => v

/-- Front matter metadata extracted by parse_markdown: the loaded
metadata, or the empty dict when loading raises. -/
def fmMetadata (fmLoad : FmLoad) (fileContent : Str) : Dict PyVal :=
  match fmLoad fileContent with
  | some r => r.1
  | none => []

/-- Markdown content passed on to conversion by parse_markdown: the
content after the front matter, or the whole file when loading raises. -/
def fmContent (fmLoad : FmLoad) (fileContent : Str) : Str :=
  match fmLoad fileContent with
  | some r => r.2
  | none => fileContent

/-- Embedding of parse_markdown from builder.py: extract front matter
(falling back to the whole file on a YAML error), convert the content,
unwrap singleton-list Meta values and merge Meta over the metadata. -/
def parse_markdown (fmLoad : FmLoad) (convert : MdConvert) (fileContent : Str) :
    Str × Dict PyVal :=
  let metadata := fmMetadata fmLoad fileContent
  let conv := convert (fmContent fmLoad fileContent)
  let html_content := conv.1
  match conv.2 with
  | some markdown_meta =>
      (html_content,
        dictUpdate metadata
          (markdown_meta.map (fun p => (p.1, unwrapSingleton p.2))))
  | none => (html_content, metadata)

/-! ## Builder configuration -/

/-- The immutable configuration stored on the Builder instance. -/
structure Config where
  source_path : Str
  source_media_path : Str
  output_path : Str
  output_media_path : Str
  media_url : Option Str
  no_link_extensions : Bool
  ignore_files : List Str

/-- Models the value of the Python expression a or b for an optional
string a: b when a is None or empty. -/
def pyOr (a : Option Str) (b : Str) : Str :=
  match a with
  | some s => if s = [] then b else s
  | none => b

/-! ## Builder._build_context -/

/-- Embedding of Builder._build_context.  The iglob results are given as
the list of discovered context.yaml files in discovery order, each with
its parsed YAML mapping; a file is merged when the string of the
document directory starts with the string of the directory holding the
context file. -/
def build_context (contextFiles : List (Str × Dict PyVal)) (local_path : Str) :
    Dict PyVal :=
  contextFiles.foldl
    (fun acc f =>
      if (dirname f.1).isPrefixOf local_path then dictUpdate acc f.2 else acc)
    []

/-! ## Builder._replace_internal_links

The regex applied by re.sub has pattern (href="(?! *http).*)\.md where
the dot does not match a newline and the star is greedy.  The match is
embedded directly: a literal href=" opening, a negative lookahead for
optional spaces followed by http, then the longest run of non-newline
characters that is followed by the literal .md. -/

/-- Holds when the negative lookahead (?! *http) fails, that is when the
text at this position is zero or more spaces followed by http. -/
def lookaheadHttp (l : Str) : Bool :=
  (str "http").isPrefixOf (l.dropWhile (fun c => c = ' '))

/-- Largest k such that the k characters here contain no newline and are
followed by the literal .md, mirroring the greedy backtracking of the
dot-star before the .md literal. -/
def findLastMd : Str → Option Nat
  | [] => none
  | c :: cs =>
    if c = '\n' then none
    else
      match findLastMd cs with
      | some k => some (k + 1)
      | none => if (str ".md").isPrefixOf (c :: cs) then some 0 else none

/-- Attempts the regex match at the head of l.  On success returns the
captured group (href=" plus the greedy run) and the text remaining after
the whole match (group plus .md). -/
def matchInternalLink (l : Str) : Option (Str × Str) :=
  if (str "href=\"").isPrefixOf l then
    let rest := l.drop 6
    if lookaheadHttp rest then none
    else
      match findLastMd rest with
      | some k => some (str "href=\"" ++ rest.take k, rest.drop (k + 3))
      | none => none
  else none

/-- Left-to-right scan of re.sub: at each position try the match; on
success emit the replacement and continue after the match, otherwise
keep the character.  Fuel bounds the recursion; it is never exhausted
when it starts at the length of the text, since every step consumes at
least one character. -/
def riAux (noExt : Bool) : Nat → Str → Str
  | 0, l => l
  | _ + 1, [] => []
  | fuel + 1, c :: cs =>
    match matchInternalLink (c :: cs) with
    | some (g, rest) =>
        g ++ (if noExt then [] else str ".html") ++ riAux noExt fuel rest
    | none => c :: riAux noExt fuel cs

/-- Embedding of Builder._replace_internal_links: the re.sub call with
replacement the group alone (no_link_extensions on) or the group
followed by .html (off). -/
def replace_internal_links (no_link_extensions : Bool) (html_document : Str) : Str :=
  riAux no_link_extensions html_document.length html_document

/-! ## Builder._replace_media_links -/

/-- Models Python str.replace for a nonempty pattern: replaces every
non-overlapping occurrence left to right.  builder.py never calls it
with an empty pattern, since os.path.relpath never returns an empty
string. -/
def pyReplaceAux (old new : Str) : Nat → Str → Str
  | 0, s => s
  | _ + 1, [] => []
  | fuel + 1, c :: cs =>
    if old ≠ [] ∧ old.isPrefixOf (c :: cs) then
      new ++ pyReplaceAux old new fuel ((c :: cs).drop old.length)
    else
      c :: pyReplaceAux old new fuel cs

/-- Models s.replace(old, new) for nonempty old. -/
def pyReplace (s old new : Str) : Str :=
  pyReplaceAux old new s.length s

/-- Embedding of Builder._replace_media_links. -/
def replace_media_links (cfg : Config)
    (html_document source_filepath output_filepath : Str) : Str :=
  let relative_media_path :=
    relpath cfg.output_media_path (dirname output_filepath)
  let media_url := pyOr cfg.media_url relative_media_path
  let old_media_path :=
    relpath cfg.source_media_path (dirname source_filepath)
  pyReplace html_document old_media_path media_url

/-! ## Builder._build_file output path and Builder._build_files -/

/-- Models re.sub with pattern backslash-dot md anchored at the end and
replacement .html: swaps a trailing .md extension for .html. -/
def sub_md_end (s : Str) : Str :=
  match s.reverse with
  | 'd' :: 'm' :: '.' :: restRev => restRev.reverse ++ str ".html"
  | _ => s

/-- Embedding of the output path computation in Builder._build_file:
join the output path with the path of the source file relative to the
source path and swap a trailing .md for .html. -/
def output_filepath (output_path source_path source_filepath : Str) : Str :=
  sub_md_end (pyJoin output_path (relpath source_filepath source_path))

/-- Embedding of Builder._build_files over the list of discovered .md
files in iglob order: returns the written output file paths and the
ignored source file paths, in order. -/
def build_files (cfg : Config) (discovered : List Str) : List Str × List Str :=
  discovered.foldl
    (fun acc fp =>
      if cfg.ignore_files.contains (basename fp) then
        (acc.1, acc.2 ++ [fp])
      else
        (acc.1 ++ [output_filepath cfg.output_path cfg.source_path fp], acc.2))
    ([], [])

/-! ## Builder._copy_media -/

/-- Observable outcome of Builder._copy_media. -/
inductive MediaAction where
  | copied
  | skippedSame
  | warnedMissing
  deriving DecidableEq

/-- Modelled from the spec: mergetree lives in the utilities module,
which is not under src; per the spec it recursively copies the contents
of the source tree into the destination tree, merging into any existing
destination tree rather than replacing it.  Trees are dicts from
relative file path to file content, and merging overwrites colliding
paths with the source file while keeping all other destination files. -/
def mergetree (src dst : Dict Str) : Dict Str :=
  dictUpdate dst src

/-- Embedding of Builder._copy_media.  The source media tree is none
when os.path.isdir is false; otherwise it is the dict of files under
the source media directory.  Returns the action taken and the resulting
output media tree. -/
def copy_media (cfg : Config) (srcTree : Option (Dict Str)) (dstTree : Dict Str) :
    MediaAction × Dict Str :=
  match srcTree with
  | none => (.warnedMissing, dstTree)
  | some files =>
    if relpath cfg.source_media_path cfg.output_media_path = str "." then
      (.skippedSame, dstTree)
    else
      (.copied, mergetree files dstTree)

/-! ## Builder._build_html template context -/

/-- Embedding of the context assembly in Builder._build_html: start from
the merged context.yaml context, update with the document metadata, then
set the reserved content key to the rendered HTML. -/
def build_template_context (local_context metadata : Dict PyVal)
    (html_content : PyVal) : Dict PyVal :=
  dictSet (dictUpdate local_context metadata) (str "content") html_content

/-! ## Definitions written from the words of the spec, for comparison -/

/-- Directory relationship claim C4 describes, following the words of
the spec: the directory is the directory of the document itself or one
of its proper ancestors in the path hierarchy. -/
def isAncestorOrSelf (d p : Str) : Bool :=
  d == p || (d ++ ['/']).isPrefixOf p

/-- Lookup the amended claim C4 predicts for the merged context: among
the context files whose directory string is a prefix of the document
directory string, taken in discovery order, the last value written for
the key wins. -/
def contextLookupSpec (contextFiles : List (Str × Dict PyVal))
    (local_path k : Str) : Option PyVal :=
  (contextFiles.filter (fun f => (dirname f.1).isPrefixOf local_path)).foldl
    (fun a f => oGet (lookupLast f.2 k) a) none

/-- Media rewrite claim C6 describes, following the words of the spec:
replace every occurrence of the relative path from the directory of the
source document to the source media directory with the media URL
override when it is set and nonempty, and with the relative path from
the directory of the output document to the output media directory
otherwise. -/
def specMediaRewrite (cfg : Config)
    (html_document source_filepath output_filepath : Str) : Str :=
  let oldPath := relpath cfg.source_media_path (dirname source_filepath)
  let newPath :=
    match cfg.media_url with
    | some u =>
        if u = [] then relpath cfg.output_media_path (dirname output_filepath)
        else u
    | none => relpath cfg.output_media_path (dirname output_filepath)
  pyReplace html_document oldPath newPath

/-- Location identity claim C9 describes, following the words of the
spec: two normalized paths resolve to the same location when they have
the same components. -/
def resolvesSame (a b : Str) : Bool :=
  splitPath a == splitPath b

/-! ## Dictionary lemmas -/

theorem oGet_or {α : Type} (a b : Option α) : oGet a b = a.or b := by
  cases a <;> rfl

theorem oGet_assoc {α : Type} (a b c : Option α) :
    oGet (oGet a b) c = oGet a (oGet b c) := by
  cases a <;> rfl

/-- Replacing values at key k does not change lookups at other keys. -/
theorem lookupDict_map_set_ne {α : Type} (d : Dict α) (k : Str) (v : α)
    (k₂ : Str) (hne : k₂ ≠ k) :
    lookupDict (d.map (fun p => if p.1 = k then (k, v) else p)) k₂ =
      lookupDict d k₂ := by
  induction d with
  | nil => rfl
  | cons a rest ih =>
    by_cases ha : a.1 = k
    · simp only [lookupDict, List.map_cons, ha, if_pos rfl]
      rw [List.find?_cons_of_neg, List.find?_cons_of_neg]
      · exact ih
      · simpa [ha] using Ne.symm hne
      · simpa using Ne.symm hne
    · simp only [lookupDict, List.map_cons, if_neg ha]
      by_cases h2 : a.1 = k₂
      · rw [List.find?_cons_of_pos, List.find?_cons_of_pos] <;> simp [h2]
      · rw [List.find?_cons_of_neg, List.find?_cons_of_neg]
        · exact ih
        · simp [h2]
        · simp [h2]

/-- Lookup after a single dict assignment. -/
theorem lookupDict_dictSet {α : Type} (d : Dict α) (k : Str) (v : α) (k₂ : Str) :
    lookupDict (dictSet d k v) k₂ = if k₂ = k then some v else lookupDict d k₂ := by
  unfold dictSet
  by_cases hc : d.any (fun p => p.1 = k) = true
  · rw [if_pos hc]
    by_cases hk : k₂ = k
    · subst hk
      simp only [if_pos rfl]
      induction d with
      | nil => exact Bool.noConfusion hc
      | cons a rest ih =>
        by_cases ha : a.1 = k₂
        · simp only [lookupDict, List.map_cons, if_pos ha]
          rw [List.find?_cons_of_pos] <;> simp
        · have hc2 : rest.any (fun p => p.1 = k₂) = true := by
            simp only [List.any_cons] at hc
            rcases (Bool.or_eq_true _ _).mp hc with h | h
            · exact absurd (of_decide_eq_true h) ha
            · exact h
          simp only [lookupDict, List.map_cons, if_neg ha]
          rw [List.find?_cons_of_neg]
          · exact ih hc2
          · simp [ha]
    · rw [if_neg hk]
      exact lookupDict_map_set_ne d k v k₂ hk
  · rw [if_neg hc]
    have hnone : d.find? (fun p => p.1 = k) = none := by
      rw [List.find?_eq_none]
      intro x hx hpx
      exact hc (List.any_eq_true.mpr ⟨x, hx, hpx⟩)
    by_cases hk : k₂ = k
    · subst hk
      simp only [if_pos rfl, lookupDict, List.find?_append, hnone]
      simp [List.find?]
    · simp only [if_neg hk, lookupDict, List.find?_append]
      have : List.find? (fun p => p.1 = k₂) [(k, v)] = none := by
        simp [List.find?, Ne.symm hk]
      rw [this]
      cases d.find? (fun p => p.1 = k₂) <;> rfl

/-- Last-entry lookup on a cons. -/
theorem lookupLast_cons {α : Type} (k₀ : Str) (v₀ : α) (rest : Dict α) (k : Str) :
    lookupLast ((k₀, v₀) :: rest) k =
      oGet (lookupLast rest k) (if k₀ = k then some v₀ else none) := by
  unfold lookupLast
  rw [List.reverse_cons, List.find?_append]
  cases h : rest.reverse.find? (fun p => p.1 = k)
  · simp only [Option.or, oGet]
    by_cases hk : k₀ = k <;> simp [List.find?, hk]
  · simp [Option.or, oGet]

/-- Lookup after d.update(m): the last entry of m for the key wins, and
the original dict is consulted only for keys m does not set. -/
theorem lookupDict_dictUpdate {α : Type} (d m : Dict α) (k : Str) :
    lookupDict (dictUpdate d m) k = oGet (lookupLast m k) (lookupDict d k) := by
  induction m generalizing d with
  | nil => rfl
  | cons p rest ih =>
    show lookupDict (dictUpdate (dictSet d p.1 p.2) rest) k = _
    rw [ih, lookupDict_dictSet]
    rcases p with ⟨k₀, v₀⟩
    rw [lookupLast_cons, oGet_assoc]
    by_cases hk : k = k₀
    · subst hk
      simp [oGet]
    · have hk2 : ¬ k₀ = k := fun h => hk h.symm
      simp only [if_neg hk, if_neg hk2]
      rfl

theorem lookupDict_nil {α : Type} (k : Str) : lookupDict ([] : Dict α) k = none := rfl

theorem lookupLast_nil {α : Type} (k : Str) : lookupLast ([] : Dict α) k = none := rfl

/-- Mapping a key-preserving function over entries commutes with
last-entry lookup. -/
theorem lookupLast_map_val {α β : Type} (m : Dict α) (f : α → β) (k : Str) :
    lookupLast (m.map (fun p => (p.1, f p.2))) k = (lookupLast m k).map f := by
  unfold lookupLast
  rw [← List.map_reverse]
  induction m.reverse with
  | nil => rfl
  | cons a rest ih =>
    by_cases ha : a.1 = k
    · rw [List.map_cons, List.find?_cons_of_pos, List.find?_cons_of_pos] <;> simp [ha]
    · rw [List.map_cons, List.find?_cons_of_neg, List.find?_cons_of_neg]
      · exact ih
      · simp [ha]
      · simp [ha]

/-! ## Claims about parse_markdown metadata (C7, C3) -/

/-- C7: in parse_markdown, every Markdown-native (meta-extension)
metadata value that is a list of exactly one element is unwrapped to
that single element, and the meta-extension metadata is merged into the
front matter metadata so that on a key collision the meta-extension
value wins; keys the meta-extension does not set fall back to the front
matter value. -/
theorem parse_markdown_meta_precedence (fmLoad : FmLoad) (convert : MdConvert)
    (fileContent : Str) (mm : Dict PyVal) (k : Str)
    (hmeta : (convert (fmContent fmLoad fileContent)).2 = some mm) :
    lookupDict (parse_markdown fmLoad convert fileContent).2 k =
      oGet ((lookupLast mm k).map unwrapSingleton)
        (lookupDict (fmMetadata fmLoad fileContent) k) := by
  unfold parse_markdown
  simp only [hmeta]
  rw [lookupDict_dictUpdate, lookupLast_map_val]

/-- Witness for C7: with front matter setting keys a and b and the meta
extension setting b to a singleton list, the merged metadata has the
unwrapped meta value at b. -/
theorem parse_markdown_meta_precedence_witness :
    lookupDict
      (parse_markdown
        (fun _ => some ([(str "a", PyVal.pstr (str "fm")),
                         (str "b", PyVal.pstr (str "old"))], str "body"))
        (fun s => (s, some [(str "b", PyVal.plist [PyVal.pstr (str "new")])]))
        (str "f")).2 (str "b") = some (PyVal.pstr (str "new")) := by
  have h := parse_markdown_meta_precedence
    (fun _ => some ([(str "a", PyVal.pstr (str "fm")),
                     (str "b", PyVal.pstr (str "old"))], str "body"))
    (fun s => (s, some [(str "b", PyVal.plist [PyVal.pstr (str "new")])]))
    (str "f")
    [(str "b", PyVal.plist [PyVal.pstr (str "new")])]
    (str "b") rfl
  rw [h]
  rfl

/-- C3 counterexample: a file whose front matter block is malformed YAML
(frontmatter.load raises, modelled by the load returning none) but whose
opening lines are read as metadata by the markdown meta extension.  On
the real libraries the file below starts with a block the meta extension
accepts (key colon value lines between dashes) while the YAML parser
rejects the unclosed bracket, so the conversion returns Meta entries for
title and bad; parse_markdown then returns that mapping, not the empty
metadata the claim promises, although the whole file is indeed the
body. -/
theorem parse_markdown_malformed_meta_counterexample :
    (parse_markdown (fun _ => none)
        (fun s => (s, some [(str "title", PyVal.plist [PyVal.pstr (str "X")]),
                            (str "bad", PyVal.plist [PyVal.pstr (str "[")])]))
        (str "---\ntitle: X\nbad: [\n---\nbody")).1 =
      str "---\ntitle: X\nbad: [\n---\nbody" ∧
    ((parse_markdown (fun _ => none)
        (fun s => (s, some [(str "title", PyVal.plist [PyVal.pstr (str "X")]),
                            (str "bad", PyVal.plist [PyVal.pstr (str "[")])]))
        (str "---\ntitle: X\nbad: [\n---\nbody")).2).length = 2 :=
  ⟨rfl, rfl⟩

/-- C3 (amended): on a file whose front matter block is malformed YAML,
parse_markdown does not fail and behaves exactly as if the front matter
load had returned empty metadata with the entire file content as the
body; in particular the whole file is converted to HTML and only
meta-extension metadata can appear in the result. -/
theorem parse_markdown_malformed_fallback (fmLoad : FmLoad) (convert : MdConvert)
    (fileContent : Str) (hfail : fmLoad fileContent = none) :
    parse_markdown fmLoad convert fileContent =
      parse_markdown (fun _ => some ([], fileContent)) convert fileContent := by
  unfold parse_markdown fmMetadata fmContent
  rw [hfail]

/-- Witness for C3: a concrete failing load is processed like an empty
front matter block over the whole file. -/
theorem parse_markdown_malformed_fallback_witness :
    ((fun _ : Str => (none : Option (Dict PyVal × Str))) (str "x: [\nbody") = none) ∧
    parse_markdown (fun _ => none) (fun s => (s, none)) (str "x: [\nbody") =
      parse_markdown (fun _ => some ([], str "x: [\nbody")) (fun s => (s, none))
        (str "x: [\nbody") :=
  ⟨rfl, parse_markdown_malformed_fallback (fun _ => none) (fun s => (s, none))
    (str "x: [\nbody") rfl⟩

/-! ## Claims about the template context (C10) -/

/-- C10: the template context obeys a fixed precedence: the reserved key
content always maps to the rendered HTML, and every other key gets the
last meta or front matter value when the document metadata sets it, the
merged context.yaml value otherwise; a content key supplied by metadata
or context never reaches the template. -/
theorem build_html_context_precedence (local_context metadata : Dict PyVal)
    (html_content : PyVal) :
    lookupDict (build_template_context local_context metadata html_content)
        (str "content") = some html_content ∧
    ∀ k : Str, k ≠ str "content" →
      lookupDict (build_template_context local_context metadata html_content) k =
        oGet (lookupLast metadata k) (lookupDict local_context k) := by
  constructor
  · rw [build_template_context, lookupDict_dictSet, if_pos rfl]
  · intro k hk
    rw [build_template_context, lookupDict_dictSet, if_neg hk,
      lookupDict_dictUpdate]

/-- Witness for C10: even when both context.yaml and the metadata try to
set content, the rendered HTML wins, and for another key the metadata
overrides the context. -/
theorem build_html_context_precedence_witness :
    lookupDict
      (build_template_context
        [(str "content", PyVal.pstr (str "evil")), (str "t", PyVal.pstr (str "ctx"))]
        [(str "content", PyVal.pstr (str "evil2")), (str "t", PyVal.pstr (str "meta"))]
        (PyVal.pstr (str "HTML"))) (str "content") = some (PyVal.pstr (str "HTML")) ∧
    (str "t" ≠ str "content" ∧
      lookupDict
        (build_template_context
          [(str "content", PyVal.pstr (str "evil")), (str "t", PyVal.pstr (str "ctx"))]
          [(str "content", PyVal.pstr (str "evil2")), (str "t", PyVal.pstr (str "meta"))]
          (PyVal.pstr (str "HTML"))) (str "t") = some (PyVal.pstr (str "meta"))) := by
  refine ⟨(build_html_context_precedence _ _ _).1, by decide, ?_⟩
  have h := (build_html_context_precedence
    [(str "content", PyVal.pstr (str "evil")), (str "t", PyVal.pstr (str "ctx"))]
    [(str "content", PyVal.pstr (str "evil2")), (str "t", PyVal.pstr (str "meta"))]
    (PyVal.pstr (str "HTML"))).2 (str "t") (by decide)
  rw [h]
  rfl

/-! ## Claims about _build_context (C4) -/

/-- Folding context updates agrees pointwise with folding choices over
the selected files. -/
theorem build_context_fold (files : List (Str × Dict PyVal)) (lp k : Str)
    (acc : Dict PyVal) :
    lookupDict
      (files.foldl
        (fun acc f =>
          if (dirname f.1).isPrefixOf lp then dictUpdate acc f.2 else acc)
        acc) k =
      (files.filter (fun f => (dirname f.1).isPrefixOf lp)).foldl
        (fun a f => oGet (lookupLast f.2 k) a) (lookupDict acc k) := by
  induction files generalizing acc with
  | nil => rfl
  | cons f fs ih =>
    by_cases hf : (dirname f.1).isPrefixOf lp = true
    · simp only [List.foldl_cons, List.filter_cons, hf, if_pos, ite_true]
      rw [ih, lookupDict_dictUpdate]
    · simp only [List.foldl_cons, List.filter_cons, hf]
      simp only [Bool.false_eq_true, if_false, ite_false]
      exact ih acc

/-- C4 counterexample: a context.yaml in directory src/doc is merged for
a document in the sibling directory src/docs, because the code compares
path strings with startswith; src/doc is not an ancestor of src/docs,
so the claim that exactly the ancestor-or-self context files are merged
fails on this input. -/
theorem build_context_ancestor_counterexample :
    isAncestorOrSelf (dirname (str "src/doc/context.yaml")) (str "src/docs") = false ∧
    lookupDict
      (build_context [(str "src/doc/context.yaml", [(str "a", PyVal.pstr (str "1"))])]
        (str "src/docs")) (str "a") = some (PyVal.pstr (str "1")) :=
  ⟨rfl, rfl⟩

/-- C4 (amended): _build_context merges exactly those context.yaml files
found under the source root whose containing directory, compared as a
path string, is a prefix of the string of the document directory,
merging them in discovery order with later entries overriding earlier
ones on key collision. -/
theorem build_context_lookup (contextFiles : List (Str × Dict PyVal))
    (local_path k : Str) :
    lookupDict (build_context contextFiles local_path) k =
      contextLookupSpec contextFiles local_path k := by
  unfold build_context contextLookupSpec
  exact build_context_fold contextFiles local_path k []

/-! ## Path lemmas -/

theorem splitSlash_ne_nil (l : Str) : splitSlash l ≠ [] := by
  cases l with
  | nil => simp [splitSlash]
  | cons c cs =>
    unfold splitSlash
    by_cases hc : c = '/'
    · simp [hc]
    · rw [if_neg hc]
      cases h : splitSlash cs <;> simp

theorem splitSlash_append (a b : Str) :
    splitSlash (a ++ '/' :: b) = splitSlash a ++ splitSlash b := by
  induction a with
  | nil => rfl
  | cons c cs ih =>
    show splitSlash (c :: (cs ++ '/' :: b)) = splitSlash (c :: cs) ++ splitSlash b
    by_cases hc : c = '/'
    · rw [splitSlash, splitSlash, if_pos hc, if_pos hc, ih]
      rfl
    · rw [splitSlash, splitSlash, if_neg hc, if_neg hc, ih]
      cases h : splitSlash cs with
      | nil => exact absurd h (splitSlash_ne_nil cs)
      | cons g gs => rfl

theorem splitSlash_no_slash (l : Str) (h : '/' ∉ l) : splitSlash l = [l] := by
  induction l with
  | nil => rfl
  | cons c cs ih =>
    have hc : c ≠ '/' := fun hh => h (hh ▸ List.mem_cons_self c cs)
    have hcs : '/' ∉ cs := fun hh => h (List.mem_cons_of_mem c hh)
    unfold splitSlash
    rw [if_neg hc, ih hcs]

theorem splitPath_append (a b : Str) :
    splitPath (a ++ '/' :: b) = splitPath a ++ splitPath b := by
  unfold splitPath
  rw [splitSlash_append, List.filter_append]

theorem joinComps_cons (c : Str) (rest : List Str) (h : rest ≠ []) :
    joinComps (c :: rest) = c ++ '/' :: joinComps rest := by
  cases rest with
  | nil => exact absurd rfl h
  | cons d ds => rfl

theorem splitPath_joinComps (comps : List Str)
    (h : ∀ c ∈ comps, c ≠ [] ∧ '/' ∉ c) :
    splitPath (joinComps comps) = comps := by
  induction comps with
  | nil => rfl
  | cons c rest ih =>
    obtain ⟨hne, hsl⟩ := h c (List.mem_cons_self c rest)
    have hrest : ∀ x ∈ rest, x ≠ [] ∧ '/' ∉ x :=
      fun x hx => h x (List.mem_cons_of_mem c hx)
    cases rest with
    | nil =>
      show splitPath (joinComps [c]) = [c]
      unfold joinComps splitPath
      rw [splitSlash_no_slash c hsl]
      simp [hne]
    | cons d ds =>
      rw [joinComps_cons c (d :: ds) (by simp), splitPath_append,
        ih hrest]
      unfold splitPath
      rw [splitSlash_no_slash c hsl]
      simp [hne]

theorem commonPrefixLen_append_self (a b : List Str) :
    commonPrefixLen (a ++ b) a = a.length := by
  induction a with
  | nil => cases b <;> rfl
  | cons x xs ih =>
    show commonPrefixLen (x :: (xs ++ b)) (x :: xs) = xs.length + 1
    rw [commonPrefixLen, if_pos rfl, ih]

/-- The relative path of a file under a directory is its local path. -/
theorem relpath_under (srcComps localComps : List Str)
    (hsrc : ∀ c ∈ srcComps, c ≠ [] ∧ '/' ∉ c)
    (hlocal : ∀ c ∈ localComps, c ≠ [] ∧ '/' ∉ c)
    (hne : localComps ≠ []) :
    relpath (joinComps srcComps ++ '/' :: joinComps localComps)
        (joinComps srcComps) = joinComps localComps := by
  unfold relpath relpathList
  rw [splitPath_append, splitPath_joinComps srcComps hsrc,
    splitPath_joinComps localComps hlocal, commonPrefixLen_append_self,
    Nat.sub_self, List.replicate_zero, List.nil_append, List.drop_left]
  rw [if_neg hne]

theorem sub_md_end_append (a : Str) :
    sub_md_end (a ++ str ".md") = a ++ str ".html" := by
  have h : (a ++ str ".md").reverse = 'd' :: 'm' :: '.' :: a.reverse := by
    simp [str]
  simp only [sub_md_end, h, List.reverse_reverse]

/-- Joining a component list that ends in a given last component splits
as a common prefix followed by that component, uniformly in the
component. -/
theorem joinComps_append_last (lc : List Str) (c d : Str) :
    ∃ W : Str, joinComps (lc ++ [c]) = W ++ c ∧ joinComps (lc ++ [d]) = W ++ d := by
  induction lc with
  | nil => exact ⟨[], rfl, rfl⟩
  | cons x rest ih =>
    obtain ⟨W, h1, h2⟩ := ih
    refine ⟨x ++ '/' :: W, ?_, ?_⟩
    · rw [List.cons_append, joinComps_cons x (rest ++ [c]) (by simp), h1]
      simp
    · rw [List.cons_append, joinComps_cons x (rest ++ [d]) (by simp), h2]
      simp

/-- Joining a base onto two tails with equal head shape prepends the
same prefix to both. -/
theorem pyJoin_shape (a X Y : Str) (h : X.head? = Y.head?) :
    ∃ P : Str, pyJoin a X = P ++ X ∧ pyJoin a Y = P ++ Y := by
  have hy : Y.head? = X.head? := h.symm
  unfold pyJoin
  rw [hy]
  by_cases h1 : X.head? = some '/'
  · rw [if_pos h1, if_pos h1]
    exact ⟨[], rfl, rfl⟩
  · rw [if_neg h1, if_neg h1]
    by_cases h2 : a = []
    · rw [if_pos h2, if_pos h2]
      exact ⟨[], rfl, rfl⟩
    · rw [if_neg h2, if_neg h2]
      by_cases h3 : a.getLast? = some '/'
      · rw [if_pos h3, if_pos h3]
        exact ⟨a, rfl, rfl⟩
      · rw [if_neg h3, if_neg h3]
        exact ⟨a ++ ['/'], by simp, by simp⟩

theorem head?_append_md_html (A : Str) :
    (A ++ str ".md").head? = (A ++ str ".html").head? := by
  cases A <;> rfl

/-! ## Claim C5: output paths mirror source paths -/

/-- C5: for a source file at a local path under the source directory,
with the local path ending in a .md file name, the output path computed
by _build_file (and written by _write_file) is exactly the output
directory joined with the same local path with the trailing .md swapped
for .html: the output tree mirrors the source tree. -/
theorem build_file_output_mirrors (output_path : Str) (srcComps lc : List Str)
    (stem : Str)
    (hsrc : ∀ c ∈ srcComps, c ≠ [] ∧ '/' ∉ c)
    (hlc : ∀ c ∈ lc, c ≠ [] ∧ '/' ∉ c)
    (hstem : '/' ∉ stem) :
    output_filepath output_path (joinComps srcComps)
        (joinComps srcComps ++ '/' :: joinComps (lc ++ [stem ++ str ".md"])) =
      pyJoin output_path (joinComps (lc ++ [stem ++ str ".html"])) := by
  have hclean : ∀ c ∈ lc ++ [stem ++ str ".md"], c ≠ [] ∧ '/' ∉ c := by
    intro c hc
    rcases List.mem_append.mp hc with h | h
    · exact hlc c h
    · rcases List.mem_singleton.mp h with rfl
      constructor
      · simp [str]
      · intro hmem
        rcases List.mem_append.mp hmem with h2 | h2
        · exact hstem h2
        · simp [str] at h2
  unfold output_filepath
  rw [relpath_under srcComps (lc ++ [stem ++ str ".md"]) hsrc hclean (by simp)]
  obtain ⟨W, h1, h2⟩ :=
    joinComps_append_last lc (stem ++ str ".md") (stem ++ str ".html")
  rw [h1, h2, ← List.append_assoc W stem (str ".md"),
    ← List.append_assoc W stem (str ".html")]
  obtain ⟨P, hp1, hp2⟩ :=
    pyJoin_shape output_path ((W ++ stem) ++ str ".md")
      ((W ++ stem) ++ str ".html") (head?_append_md_html _)
  rw [hp1, hp2, ← List.append_assoc P (W ++ stem) (str ".md"),
    sub_md_end_append, List.append_assoc]

/-- Witness for C5: a concrete source file two directories deep. -/
theorem build_file_output_mirrors_witness :
    ((∀ c ∈ [str "repo", str "src"], c ≠ [] ∧ '/' ∉ c) ∧
      (∀ c ∈ [str "guides"], c ≠ [] ∧ '/' ∉ c) ∧ '/' ∉ str "intro") ∧
    output_filepath (str "build") (joinComps [str "repo", str "src"])
        (joinComps [str "repo", str "src"] ++ '/' ::
          joinComps ([str "guides"] ++ [str "intro" ++ str ".md"])) =
      pyJoin (str "build")
        (joinComps ([str "guides"] ++ [str "intro" ++ str ".html"])) :=
  ⟨⟨by decide, by decide, by decide⟩,
    build_file_output_mirrors (str "build") [str "repo", str "src"]
      [str "guides"] (str "intro") (by decide) (by decide) (by decide)⟩

/-! ## Claim C8: the ignore list -/

/-- Unrolling the _build_files fold from an arbitrary accumulator. -/
theorem build_files_fold (cfg : Config) (discovered : List Str) (w r : List Str) :
    discovered.foldl
      (fun acc fp =>
        if cfg.ignore_files.contains (basename fp) then
          (acc.1, acc.2 ++ [fp])
        else
          (acc.1 ++ [output_filepath cfg.output_path cfg.source_path fp], acc.2))
      (w, r) =
    (w ++ (discovered.filter
            (fun p => !(cfg.ignore_files.contains (basename p)))).map
          (output_filepath cfg.output_path cfg.source_path),
     r ++ discovered.filter (fun p => cfg.ignore_files.contains (basename p))) := by
  induction discovered generalizing w r with
  | nil => simp
  | cons fp fps ih =>
    by_cases hfp : cfg.ignore_files.contains (basename fp) = true
    · have hfp2 : basename fp ∈ cfg.ignore_files := by simpa using hfp
      rw [List.foldl_cons, if_pos hfp, ih, List.filter_cons, List.filter_cons,
        if_pos hfp]
      simp [hfp, hfp2]
    · have hfp2 : ¬ basename fp ∈ cfg.ignore_files := by simpa using hfp
      rw [List.foldl_cons, if_neg hfp, ih, List.filter_cons, List.filter_cons,
        if_neg hfp]
      simp [hfp, hfp2]

/-- C8: files whose base name is in the ignore list are reported as
skipped and produce no output write, while every other discovered file
still produces its output write, in order. -/
theorem build_files_ignore_list (cfg : Config) (discovered : List Str)
    (hinj : ∀ p ∈ discovered, ∀ q ∈ discovered,
      output_filepath cfg.output_path cfg.source_path p =
        output_filepath cfg.output_path cfg.source_path q → p = q) :
    (build_files cfg discovered).2 =
      discovered.filter (fun p => cfg.ignore_files.contains (basename p)) ∧
    (build_files cfg discovered).1 =
      (discovered.filter
        (fun p => !(cfg.ignore_files.contains (basename p)))).map
        (output_filepath cfg.output_path cfg.source_path) ∧
    ∀ fp ∈ discovered, cfg.ignore_files.contains (basename fp) →
      output_filepath cfg.output_path cfg.source_path fp ∉
        (build_files cfg discovered).1 := by
  have hfold := build_files_fold cfg discovered [] []
  refine ⟨?_, ?_, ?_⟩
  · rw [show build_files cfg discovered =
      discovered.foldl _ ([], []) from rfl, hfold]
    simp
  · rw [show build_files cfg discovered =
      discovered.foldl _ ([], []) from rfl, hfold]
    simp
  · intro fp hfp hign hmem
    rw [show build_files cfg discovered =
      discovered.foldl _ ([], []) from rfl, hfold] at hmem
    simp only [List.nil_append] at hmem
    obtain ⟨q, hq, hout⟩ := List.mem_map.mp hmem
    have hqf := List.mem_filter.mp hq
    have hqd : q ∈ discovered := hqf.1
    have := hinj q hqd fp hfp hout
    subst this
    rw [hign] at hqf
    exact Bool.noConfusion hqf.2

/-- Witness for C8: two discovered files, one ignored. -/
theorem build_files_ignore_list_witness :
    ((∀ p ∈ [str "src/keep.md", str "src/skip.md"],
        ∀ q ∈ [str "src/keep.md", str "src/skip.md"],
        output_filepath (str "build") (str "src") p =
          output_filepath (str "build") (str "src") q → p = q) ∧
      [str "skip.md"].contains (basename (str "src/skip.md"))) ∧
    ((build_files
        ⟨str "src", str "src/media", str "build", str "build/media",
          none, false, [str "skip.md"]⟩
        [str "src/keep.md", str "src/skip.md"]).2 = [str "src/skip.md"] ∧
      output_filepath (str "build") (str "src") (str "src/skip.md") ∉
        (build_files
          ⟨str "src", str "src/media", str "build", str "build/media",
            none, false, [str "skip.md"]⟩
          [str "src/keep.md", str "src/skip.md"]).1) := by
  have h := build_files_ignore_list
    ⟨str "src", str "src/media", str "build", str "build/media",
      none, false, [str "skip.md"]⟩
    [str "src/keep.md", str "src/skip.md"] (by decide)
  refine ⟨⟨by decide, by decide⟩, ?_, ?_⟩
  · rw [h.1]
    rfl
  · exact h.2.2 (str "src/skip.md") (by decide) (by decide)

/-! ## Claim C9: media copying -/

theorem commonPrefixLen_le_left (p s : List Str) :
    commonPrefixLen p s ≤ p.length := by
  induction p generalizing s with
  | nil => cases s <;> simp [commonPrefixLen]
  | cons x xs ih =>
    cases s with
    | nil => simp [commonPrefixLen]
    | cons y ys =>
      rw [commonPrefixLen]
      by_cases hxy : x = y
      · rw [if_pos hxy, List.length_cons]
        exact Nat.add_le_add_right (ih ys) 1
      · rw [if_neg hxy]
        exact Nat.zero_le _

theorem commonPrefixLen_le_right (p s : List Str) :
    commonPrefixLen p s ≤ s.length := by
  induction p generalizing s with
  | nil => cases s <;> simp [commonPrefixLen]
  | cons x xs ih =>
    cases s with
    | nil => simp [commonPrefixLen]
    | cons y ys =>
      rw [commonPrefixLen]
      by_cases hxy : x = y
      · rw [if_pos hxy, List.length_cons]
        exact Nat.add_le_add_right (ih ys) 1
      · rw [if_neg hxy]
        exact Nat.zero_le _

theorem commonPrefixLen_take (p s : List Str) :
    p.take (commonPrefixLen p s) = s.take (commonPrefixLen p s) := by
  induction p generalizing s with
  | nil => cases s <;> simp [commonPrefixLen]
  | cons x xs ih =>
    cases s with
    | nil => simp [commonPrefixLen]
    | cons y ys =>
      rw [commonPrefixLen]
      by_cases hxy : x = y
      · rw [if_pos hxy]
        simp only [List.take_succ_cons, hxy, ih ys]
      · rw [if_neg hxy]
        simp

theorem commonPrefixLen_refl (a : List Str) : commonPrefixLen a a = a.length := by
  have h := commonPrefixLen_append_self a []
  rwa [List.append_nil] at h

/-- Members of the relative path component list are the parent marker or
components of the target path. -/
theorem mem_relpathList (p s : List Str) (x : Str)
    (hx : x ∈ relpathList p s) : x = str ".." ∨ x ∈ p := by
  rcases List.mem_append.mp hx with h | h
  · exact Or.inl (List.eq_of_mem_replicate h)
  · exact Or.inr (List.mem_of_mem_drop h)

/-- Components produced by splitPath are nonempty. -/
theorem splitPath_ne_nil_mem (a : Str) (x : Str) (hx : x ∈ splitPath a) :
    x ≠ [] := by
  have h := List.mem_filter.mp hx
  simpa using h.2

/-- The relpath test builder.py uses for identical media locations is
exact: it returns the current-directory marker precisely when the two
normalized paths have the same components, provided the path has no
current-directory components. -/
theorem relpath_dot_iff (a b : Str) (hdot : str "." ∉ splitPath a) :
    relpath a b = str "." ↔ splitPath a = splitPath b := by
  constructor
  · intro h
    by_cases hr : relpathList (splitPath a) (splitPath b) = []
    · unfold relpathList at hr
      rcases List.append_eq_nil.mp hr with ⟨h1, h2⟩
      have hi1 : (splitPath b).length - commonPrefixLen (splitPath a) (splitPath b) = 0 := by
        simpa using congrArg List.length h1
      have hile : commonPrefixLen (splitPath a) (splitPath b) ≤ (splitPath b).length :=
        commonPrefixLen_le_right _ _
      have hib : commonPrefixLen (splitPath a) (splitPath b) = (splitPath b).length :=
        Nat.le_antisymm hile (Nat.le_of_sub_eq_zero hi1)
      have hia : (splitPath a).length ≤ commonPrefixLen (splitPath a) (splitPath b) := by
        have hd := List.drop_eq_nil_iff.mp h2
        exact hd
      have htake := commonPrefixLen_take (splitPath a) (splitPath b)
      calc splitPath a
          = (splitPath a).take (commonPrefixLen (splitPath a) (splitPath b)) :=
            (List.take_of_length_le hia).symm
        _ = (splitPath b).take (commonPrefixLen (splitPath a) (splitPath b)) := htake
        _ = splitPath b := by rw [hib, List.take_length]
    · unfold relpath at h
      rw [if_neg hr] at h
      exfalso
      cases hjoin : relpathList (splitPath a) (splitPath b) with
      | nil => exact hr hjoin
      | cons x rest =>
        rw [hjoin] at h
        have hx : x ∈ relpathList (splitPath a) (splitPath b) := by
          rw [hjoin]
          exact List.mem_cons_self x rest
        cases rest with
        | nil =>
          rw [show joinComps [x] = x from rfl] at h
          rcases mem_relpathList _ _ _ hx with h2 | h2
          · rw [h] at h2
            exact absurd h2 (by decide)
          · rw [h] at h2
            exact hdot h2
        | cons y ys =>
          rw [joinComps_cons x (y :: ys) (by simp)] at h
          have hxne : x ≠ [] := by
            rcases mem_relpathList _ _ _ hx with h2 | h2
            · rw [h2]
              simp [str]
            · exact splitPath_ne_nil_mem a x h2
          have hlen := congrArg List.length h
          rw [List.length_append] at hlen
          cases hc : x with
          | nil => exact hxne hc
          | cons c cs =>
            rw [hc] at hlen
            simp [str] at hlen
            omega
  · intro h
    have hnil : relpathList (splitPath b) (splitPath b) = [] := by
      unfold relpathList
      rw [commonPrefixLen_refl, Nat.sub_self, List.replicate_zero,
        List.nil_append, List.drop_length]
    unfold relpath
    rw [h, if_pos hnil]

/-- C9: _copy_media warns exactly when the source media directory is
missing and then leaves the output tree alone; when the directory exists
it copies precisely when the two media locations do not resolve to the
same place, and the copy merges the source files over the destination
tree, keeping destination files the source does not provide. -/
theorem copy_media_correct (cfg : Config) (srcTree : Option (Dict Str))
    (dstTree : Dict Str)
    (hdot : str "." ∉ splitPath cfg.source_media_path) :
    ((copy_media cfg srcTree dstTree).1 = MediaAction.warnedMissing ↔ srcTree = none) ∧
    (srcTree = none → (copy_media cfg srcTree dstTree).2 = dstTree) ∧
    (∀ files, srcTree = some files →
      ((copy_media cfg srcTree dstTree).1 = MediaAction.copied ↔
        resolvesSame cfg.source_media_path cfg.output_media_path = false)) ∧
    (∀ files, srcTree = some files →
      (copy_media cfg srcTree dstTree).1 = MediaAction.copied →
      ∀ k, lookupDict (copy_media cfg srcTree dstTree).2 k =
        oGet (lookupLast files k) (lookupDict dstTree k)) := by
  cases srcTree with
  | none =>
    refine ⟨by simp [copy_media], fun _ => rfl, ?_, ?_⟩
    · intro files hf
      exact Option.noConfusion hf
    · intro files hf
      exact Option.noConfusion hf
  | some files₀ =>
    have hiff := relpath_dot_iff cfg.source_media_path cfg.output_media_path hdot
    have hcm : copy_media cfg (some files₀) dstTree =
        if relpath cfg.source_media_path cfg.output_media_path = str "." then
          (MediaAction.skippedSame, dstTree)
        else (MediaAction.copied, mergetree files₀ dstTree) := rfl
    refine ⟨?_, ?_, ?_, ?_⟩
    · constructor
      · intro h
        rw [hcm] at h
        by_cases hr : relpath cfg.source_media_path cfg.output_media_path = str "."
        · rw [if_pos hr] at h
          exact MediaAction.noConfusion h
        · rw [if_neg hr] at h
          exact MediaAction.noConfusion h
      · intro h
        exact Option.noConfusion h
    · intro h
      exact Option.noConfusion h
    · intro files hf
      injection hf with hf
      subst hf
      rw [hcm]
      by_cases hr : relpath cfg.source_media_path cfg.output_media_path = str "."
      · rw [if_pos hr]
        constructor
        · intro h
          exact absurd h (by simp)
        · intro h
          have hsame := hiff.mp hr
          unfold resolvesSame at h
          rw [hsame] at h
          simp at h
      · rw [if_neg hr]
        constructor
        · intro _
          unfold resolvesSame
          cases hb : (splitPath cfg.source_media_path == splitPath cfg.output_media_path) with
          | false => rfl
          | true => exact absurd (hiff.mpr (by simpa using hb)) hr
        · intro _
          rfl
    · intro files hf hact k
      injection hf with hf
      subst hf
      rw [hcm] at hact ⊢
      by_cases hr : relpath cfg.source_media_path cfg.output_media_path = str "."
      · rw [if_pos hr] at hact
        exact absurd hact (by simp)
      · rw [if_neg hr]
        exact lookupDict_dictUpdate dstTree _ k

/-- Witness for C9: an existing source media tree at a different
location is merged over the output tree. -/
theorem copy_media_correct_witness :
    (str "." ∉ splitPath (str "docs/media")) ∧
    (copy_media
      ⟨str "docs", str "docs/media", str "build", str "build/media",
        none, false, []⟩
      (some [(str "logo.png", str "PNG")]) [(str "old.txt", str "T")]).1 =
      MediaAction.copied ∧
    lookupDict
      (copy_media
        ⟨str "docs", str "docs/media", str "build", str "build/media",
          none, false, []⟩
        (some [(str "logo.png", str "PNG")]) [(str "old.txt", str "T")]).2
      (str "old.txt") = some (str "T") := by
  have h := copy_media_correct
    ⟨str "docs", str "docs/media", str "build", str "build/media",
      none, false, []⟩
    (some [(str "logo.png", str "PNG")]) [(str "old.txt", str "T")] (by decide)
  have hact := (h.2.2.1 [(str "logo.png", str "PNG")] rfl).mpr (by decide)
  refine ⟨by decide, hact, ?_⟩
  rw [h.2.2.2 [(str "logo.png", str "PNG")] rfl hact (str "old.txt")]
  rfl

/-! ## Claim C6: media link replacement -/

/-- Replacement is the identity on text that does not contain the
pattern. -/
theorem pyReplaceAux_no_occurrence (old new : Str) (fuel : Nat) (s : Str)
    (h : ¬ old <:+: s) : pyReplaceAux old new fuel s = s := by
  induction fuel generalizing s with
  | zero => rfl
  | succ f ih =>
    cases s with
    | nil => rfl
    | cons c cs =>
      rw [pyReplaceAux]
      have hpre : ¬ (old ≠ [] ∧ old.isPrefixOf (c :: cs) = true) := by
        rintro ⟨-, hp⟩
        exact h (List.isPrefixOf_iff_prefix.mp hp).isInfix
      rw [if_neg hpre]
      have hcs : ¬ old <:+: cs := fun hin => h (List.infix_cons hin)
      rw [ih cs hcs]

/-- C6: _replace_media_links performs exactly the plain substring
replacement the spec describes — old relative media path from the source
document directory, new path chosen as the nonempty media URL override
or the relative path from the output document directory — and when the
old path does not occur in the document, the document is returned
unchanged. -/
theorem replace_media_links_correct (cfg : Config)
    (html_document source_filepath output_filepath : Str) :
    replace_media_links cfg html_document source_filepath output_filepath =
      specMediaRewrite cfg html_document source_filepath output_filepath ∧
    (¬ (relpath cfg.source_media_path (dirname source_filepath) <:+: html_document) →
      replace_media_links cfg html_document source_filepath output_filepath =
        html_document) := by
  constructor
  · unfold replace_media_links specMediaRewrite pyOr
    cases cfg.media_url <;> rfl
  · intro hno
    unfold replace_media_links pyReplace
    exact pyReplaceAux_no_occurrence _ _ _ _ hno

/-- Witness for C6: a document mentioning the old media path twice has
both occurrences replaced, and a document without it is unchanged. -/
theorem replace_media_links_correct_witness :
    replace_media_links
        ⟨str "docs", str "docs/media", str "build", str "build/media",
          none, false, []⟩
        (str "<img src=\"../media/a.png\"> <img src=\"../media/b.png\">")
        (str "docs/sub/page.md") (str "build/sub/page.html") =
      specMediaRewrite
        ⟨str "docs", str "docs/media", str "build", str "build/media",
          none, false, []⟩
        (str "<img src=\"../media/a.png\"> <img src=\"../media/b.png\">")
        (str "docs/sub/page.md") (str "build/sub/page.html") ∧
    (¬ (relpath (str "docs/media") (dirname (str "docs/sub/page.md")) <:+:
        str "no media here") ∧
      replace_media_links
          ⟨str "docs", str "docs/media", str "build", str "build/media",
            none, false, []⟩
          (str "no media here") (str "docs/sub/page.md")
          (str "build/sub/page.html") =
        str "no media here") :=
  ⟨(replace_media_links_correct
      ⟨str "docs", str "docs/media", str "build", str "build/media",
        none, false, []⟩
      (str "<img src=\"../media/a.png\"> <img src=\"../media/b.png\">")
      (str "docs/sub/page.md") (str "build/sub/page.html")).1,
    by decide,
    (replace_media_links_correct
      ⟨str "docs", str "docs/media", str "build", str "build/media",
        none, false, []⟩
      (str "no media here") (str "docs/sub/page.md")
      (str "build/sub/page.html")).2 (by decide)⟩

/-! ## Claims C1 and C2: internal link rewriting -/

/-- C1 at a failing input: on a single line holding two internal .md
links, the greedy regex matches from the first href across to the last
.md on the line, so only the last link is rewritten; the first internal
link keeps its .md extension, although the claim promises every such
href is rewritten to .html. -/
theorem replace_internal_links_greedy_counterexample :
    replace_internal_links false
        (str "<a href=\"a.md\">x</a> <a href=\"b.md\">y</a>") =
      str "<a href=\"a.md\">x</a> <a href=\"b.html\">y</a>" := rfl

/-- C2 at a failing input: when an earlier non-http .md href shares a
line with a later http link ending in .md, the greedy match swallows the
http link and rewrites its .md to .html, although the claim promises
links starting with http are never rewritten (and the earlier internal
link is left with .md). -/
theorem replace_internal_links_http_counterexample :
    replace_internal_links false
        (str "<a href=\"a.md\"> <a href=\"http://e.com/b.md\">") =
      str "<a href=\"a.md\"> <a href=\"http://e.com/b.html\">" := rfl

end DocBuilder
